import Mathlib

/-!
# fread.h : column types, NA sentinels and the staging protocols

A shallow embedding of `src/c/csv/fread.h`:

* the `colType` enumeration (ordered hierarchy of column types);
* the NA sentinel constants `NA_BOOL8`, `NA_INT32`, `NA_INT64`,
  `NA_FLOAT64_I64`, `NA_FLOAT32_I32`, `NA_LENOFF` and the `lenOff` struct;
* the `StrBuf.numuses` lock protocol, the type promotion and the ordered
  section, whose implementing functions are not part of the header and are
  modelled from the specification.

C enumerators and C integer constants are embedded as `Int` values; bit
patterns of floating point sentinels are embedded as `Nat` values.
-/

namespace Fread

/-! ## `<stdint.h>` limits used by the header -/

/-- The constant `INT8_MIN` of `<stdint.h>`. -/
def INT8_MIN : Int := -128
/-- The constant `INT8_MAX` of `<stdint.h>`. -/
def INT8_MAX : Int := 127
/-- The constant `INT32_MIN` of `<stdint.h>`. -/
def INT32_MIN : Int := -2147483648
/-- The constant `INT32_MAX` of `<stdint.h>`. -/
def INT32_MAX : Int := 2147483647
/-- The constant `INT64_MIN` of `<stdint.h>`. -/
def INT64_MIN : Int := -9223372036854775808
/-- The constant `INT64_MAX` of `<stdint.h>`. -/
def INT64_MAX : Int := 9223372036854775807

/-! ## `colType` (fread.h, lines 25-39) -/

/-- Enumerator `NEG = -1`: dummy to force signed type. -/
def NEG : Int := -1
/-- Enumerator `CT_DROP = 0`: skip column requested by user. -/
def CT_DROP : Int := 0
/-- Enumerator `CT_BOOL8 = 1`. -/
def CT_BOOL8 : Int := 1
/-- Enumerator `CT_INT32_BARE = 2`. -/
def CT_INT32_BARE : Int := 2
/-- Enumerator `CT_INT32_FULL = 3`. -/
def CT_INT32_FULL : Int := 3
/-- Enumerator `CT_INT64 = 4`. -/
def CT_INT64 : Int := 4
/-- Enumerator `CT_FLOAT32_HEX = 5`. -/
def CT_FLOAT32_HEX : Int := 5
/-- Enumerator `CT_FLOAT64 = 6`. -/
def CT_FLOAT64 : Int := 6
/-- Enumerator `CT_FLOAT64_EXT = 7`. -/
def CT_FLOAT64_EXT : Int := 7
/-- Enumerator `CT_FLOAT64_HEX = 8`. -/
def CT_FLOAT64_HEX : Int := 8
/-- Enumerator `CT_STRING = 9`. -/
def CT_STRING : Int := 9
/-- Enumerator `NUMTYPE = 10`: placeholder for the number of types including
drop; it is the length of the arrays `typeSize[NUMTYPE]`, `typeName[NUMTYPE]`. -/
def NUMTYPE : Int := 10

/-- The column-type enumerators of `colType` in declaration order, that is all
enumerators except the dummy `NEG` and the placeholder `NUMTYPE`. -/
def colTypeCodes : List Int :=
  [CT_DROP, CT_BOOL8, CT_INT32_BARE, CT_INT32_FULL, CT_INT64, CT_FLOAT32_HEX,
   CT_FLOAT64, CT_FLOAT64_EXT, CT_FLOAT64_HEX, CT_STRING]

/-- A value is representable in `int8_t`, the element type of the `types`
array handed to `userOverride` and `allocateDT`. -/
def fitsInt8 (x : Int) : Prop := INT8_MIN ≤ x ∧ x ≤ INT8_MAX

instance (x : Int) : Decidable (fitsInt8 x) := by
  unfold fitsInt8; infer_instance

/-! ## `lenOff` and the NA sentinels (fread.h, lines 47-60) -/

/-- The struct `lenOff`: `len` is signed to distinguish NA from the empty
string. Both fields are `int32_t`. -/
structure lenOff where
  len : Int
  off : Int
  deriving DecidableEq, Repr

/-- Macro `NA_BOOL8`, defined as `INT8_MIN`. -/
def NA_BOOL8 : Int := INT8_MIN
/-- Macro `NA_INT32`, defined as `INT32_MIN`. -/
def NA_INT32 : Int := INT32_MIN
/-- Macro `NA_INT64`, defined as `INT64_MIN`. -/
def NA_INT64 : Int := INT64_MIN
/-- Macro `NA_FLOAT64_I64`, the 64-bit pattern `0x7FF00000000007A2`. -/
def NA_FLOAT64_I64 : Nat := 0x7FF00000000007A2
/-- Macro `NA_FLOAT32_I32`, the 32-bit pattern `0x7F8007A2`. -/
def NA_FLOAT32_I32 : Nat := 0x7F8007A2
/-- Macro `NA_LENOFF`, defined as `INT32_MIN`; it applies to `lenOff.len`
only, `lenOff.off` is undefined for NA. -/
def NA_LENOFF : Int := INT32_MIN

/-- A string value is NA when its `len` field holds `NA_LENOFF`
(fread.h line 60: "lenOff.len only; lenOff.off undefined for NA"). -/
def lenOff.isNA (s : lenOff) : Bool := s.len == NA_LENOFF

/-! ## IEEE-754 field extraction for bit patterns -/

/-- Sign bit (bit 63) of a binary64 bit pattern. -/
def f64Sign (bits : Nat) : Nat := bits / 2 ^ 63 % 2
/-- Exponent field (bits 52..62, 11 bits) of a binary64 bit pattern. -/
def f64Exponent (bits : Nat) : Nat := bits / 2 ^ 52 % 2 ^ 11
/-- Mantissa field (bits 0..51, 52 bits) of a binary64 bit pattern. -/
def f64Mantissa (bits : Nat) : Nat := bits % 2 ^ 52
/-- Quiet bit of a binary64 bit pattern: the top mantissa bit, bit 51. -/
def f64QuietBit (bits : Nat) : Nat := bits / 2 ^ 51 % 2
/-- Mantissa bits below the quiet bit (bits 0..50) of a binary64 pattern. -/
def f64Payload (bits : Nat) : Nat := bits % 2 ^ 51

/-- Sign bit (bit 31) of a binary32 bit pattern. -/
def f32Sign (bits : Nat) : Nat := bits / 2 ^ 31 % 2
/-- Exponent field (bits 23..30, 8 bits) of a binary32 bit pattern. -/
def f32Exponent (bits : Nat) : Nat := bits / 2 ^ 23 % 2 ^ 8
/-- Mantissa field (bits 0..22, 23 bits) of a binary32 bit pattern. -/
def f32Mantissa (bits : Nat) : Nat := bits % 2 ^ 23
/-- Quiet bit of a binary32 bit pattern: the top mantissa bit, bit 22. -/
def f32QuietBit (bits : Nat) : Nat := bits / 2 ^ 22 % 2
/-- Mantissa bits below the quiet bit (bits 0..21) of a binary32 pattern. -/
def f32Payload (bits : Nat) : Nat := bits % 2 ^ 22

/-- The value of a `w`-bit pattern when stored in a signed two's complement
integer of width `w`. -/
def toSigned (w : Nat) (bits : Nat) : Int :=
  if bits % 2 ^ w < 2 ^ (w - 1) then ((bits % 2 ^ w : Nat) : Int)
  else ((bits % 2 ^ w : Nat) : Int) - ((2 ^ w : Nat) : Int)

/-! ## The `StrBuf.numuses` lock (fread.h, lines 63-94) -/

/-- Modelled from the spec: the functions that copy into and reallocate a
`StrBuf` are not part of the header; only the field `volatile int numuses`
and its describing comment are. The state of one `StrBuf` lock consists of
the counter `numuses` itself together with two observers that are not stored
in the struct: `copying`, the number of threads that are between "begin copy"
and "end copy", and `growing`, the number of threads that are between "begin
grow" and "end grow" (a reallocation in progress). The C field is an `int`;
it is embedded as an `Int` without wrap-around, since the number of threads
(`int32_t nth` of `freadMainArgs`) bounds the number of concurrent copies by
`INT32_MAX`. -/
structure StrBufLock where
  numuses : Int
  copying : Nat
  growing : Nat
  deriving DecidableEq, Repr

/-- Modelled from the spec: the four atomic steps of the `numuses` protocol.
`beginGrow mark` sets the counter to the negative value `-(mark + 1)`, so
that every negative value is covered. -/
inductive LockStep where
  | beginCopy : LockStep
  | endCopy : LockStep
  | beginGrow (mark : Nat) : LockStep
  | endGrow : LockStep
  deriving DecidableEq, Repr

/-- Modelled from the spec: initial state of the lock, `numuses = 0`, no
thread copying and no thread reallocating. -/
def StrBufLock.init : StrBufLock := ⟨0, 0, 0⟩

/-- Modelled from the spec: one step of the `numuses` protocol, `none` when
the step is not allowed in the state.
* begin copy: allowed only when `numuses >= 0`; increments `numuses`;
* end copy: taken by a thread that began a copy; decrements `numuses`;
* begin grow: allowed only when `numuses == 0`; sets `numuses` negative;
* end grow: taken by the thread that began the grow; sets `numuses` to 0. -/
def StrBufLock.step (s : StrBufLock) : LockStep → Option StrBufLock
  | .beginCopy =>
    if 0 ≤ s.numuses then
      some { s with numuses := s.numuses + 1, copying := s.copying + 1 }
    else none
  | .endCopy =>
    if 0 < s.copying then
      some { s with numuses := s.numuses - 1, copying := s.copying - 1 }
    else none
  | .beginGrow mark =>
    if s.numuses = 0 then
      some { s with numuses := -((mark : Int) + 1), growing := s.growing + 1 }
    else none
  | .endGrow =>
    if 0 < s.growing then
      some { s with numuses := 0, growing := s.growing - 1 }
    else none

/-- Modelled from the spec: run a sequence of protocol steps from a state;
`none` as soon as one step is not allowed. -/
def StrBufLock.run (s : StrBufLock) : List LockStep → Option StrBufLock
  | [] => some s
  | a :: rest =>
    match s.step a with
    | none => none
    | some s1 => s1.run rest

/-- The inductive invariant of the lock: either nobody reallocates and the
counter equals the number of copying threads, or exactly one thread
reallocates, nobody copies and the counter is negative. -/
def StrBufLock.Inv (s : StrBufLock) : Prop :=
  (s.growing = 0 ∧ s.numuses = (s.copying : Int)) ∨
  (s.growing = 1 ∧ s.copying = 0 ∧ s.numuses < 0)

/-! ## Type promotion (spec 4.1) -/

/-- Modelled from the spec: the function `promote` is not part of the header.
"`promote(current, observed)` returns the least type >= both inputs in the
fixed order": the first enumerator, in the order of `colType`, that is at
least `current` and at least `observed`. -/
def promote (current observed : Int) : Option Int :=
  colTypeCodes.find? (fun t => decide (current ≤ t) && decide (observed ≤ t))

/-! ## The ordered section (fread.h, lines 205-210 and 338-343; spec 4.6) -/

/-- Modulus of `size_t`, the type of the fields `DTi` and `nRows` of
`ThreadLocalFreadParsingContext` (64-bit platform). -/
def SIZE_MOD : Nat := 2 ^ 64

/-- Modelled from the spec: the outcome of scanning one chunk, namely the
field `nRows` of its `ThreadLocalFreadParsingContext` and whether the chunk
carries a type-mismatch signal. -/
structure Chunk where
  nRows : Nat
  mismatch : Bool
  deriving DecidableEq, Repr

/-- Modelled from the spec: the shared state of one pass around the ordered
section, which is not part of the header.
* `next`: the index of the chunk that may enter the ordered section next;
* `total`: the running total of committed row counts (a `size_t`);
* `waiting`: the chunks that finished scanning and wait for their turn;
* `DTi`: the pairs (chunk index, value assigned to `ctx.DTi`), in the order
  in which the assignments were made;
* `stopTeam`: the shared cancellation flag. -/
structure OrderedState where
  next : Nat
  total : Nat
  waiting : List Nat
  DTi : List (Nat × Nat)
  stopTeam : Bool
  deriving DecidableEq, Repr

/-- Modelled from the spec: state at the start of a pass. -/
def OrderedState.init : OrderedState := ⟨0, 0, [], [], false⟩

/-- Modelled from the spec: the body of the ordered section for the chunk
whose turn it is (chunk `s.next`): "(a) if this chunk carries a type-mismatch
signal, ... set the shared cancellation flag ...; (b) otherwise, assign this
chunk's starting output-row index as the running total of previously
committed row counts, then add this chunk's row count to that running
total." -/
def orderedSection (chunks : List Chunk) (s : OrderedState) : OrderedState :=
  let c := (chunks[s.next]?).getD ⟨0, false⟩
  if c.mismatch then
    { s with next := s.next + 1, waiting := s.waiting.erase s.next, stopTeam := true }
  else
    { s with next := s.next + 1, waiting := s.waiting.erase s.next,
             DTi := s.DTi ++ [(s.next, s.total)],
             total := (s.total + c.nRows) % SIZE_MOD }

/-- Modelled from the spec: as long as the chunk whose turn it is has
finished scanning, it passes through the ordered section. -/
def drain (chunks : List Chunk) : Nat → OrderedState → OrderedState
  | 0, s => s
  | fuel + 1, s =>
    if s.next ∈ s.waiting then drain chunks fuel (orderedSection chunks s) else s

/-- Modelled from the spec: chunk `k` finishes scanning; it waits for its
turn, and every chunk whose turn has come passes through the ordered
section. -/
def finishScan (chunks : List Chunk) (s : OrderedState) (k : Nat) : OrderedState :=
  drain chunks (s.waiting.length + 1) { s with waiting := k :: s.waiting }

/-- Modelled from the spec: a whole pass; `completion` lists the chunk indices
in the order in which the chunks finished scanning. -/
def runPass (chunks : List Chunk) (completion : List Nat) : OrderedState :=
  completion.foldl (finishScan chunks) OrderedState.init

/-- Sum of `nRows` of the chunks `0 .. k-1`. -/
def rowsBefore (chunks : List Chunk) (k : Nat) : Nat :=
  ((chunks.map Chunk.nRows).take k).sum

/-- Total number of rows of all chunks. -/
def totalRows (chunks : List Chunk) : Nat := (chunks.map Chunk.nRows).sum

/-- Invariant of a pass without type-mismatch signal, where `done` lists the
chunks that finished scanning so far: the waiting chunks are the finished
ones whose turn has not come, every chunk before `next` has finished, and
the assignments made so far are the prefix sums of the row counts. -/
structure OrderedInv (chunks : List Chunk) (done : List Nat) (s : OrderedState) : Prop where
  next_le : s.next ≤ chunks.length
  waiting_iff : ∀ i, i ∈ s.waiting ↔ (i ∈ done ∧ s.next ≤ i)
  waiting_nodup : s.waiting.Nodup
  below_done : ∀ i, i < s.next → i ∈ done
  dti : s.DTi = (List.range s.next).map (fun k => (k, rowsBefore chunks k))
  total : s.total = rowsBefore chunks s.next
  stop : s.stopTeam = false

/-! ## Theorems: enumeration and sentinels -/

/-- C1: the colType codes realise the order DROP=0 < BOOL8 < INT32_BARE <
INT32_FULL < INT64 < FLOAT32_HEX < FLOAT64 < FLOAT64_EXT < FLOAT64_HEX <
STRING; the ten codes are pairwise distinct and consecutive (exactly 0..9);
NUMTYPE = 10 = CT_STRING + 1 is the number of codes; and every code is a
valid index in [0, NUMTYPE). -/
theorem colType_codes_order :
    CT_DROP = 0 ∧
    (CT_DROP < CT_BOOL8 ∧ CT_BOOL8 < CT_INT32_BARE ∧ CT_INT32_BARE < CT_INT32_FULL ∧
      CT_INT32_FULL < CT_INT64 ∧ CT_INT64 < CT_FLOAT32_HEX ∧ CT_FLOAT32_HEX < CT_FLOAT64 ∧
      CT_FLOAT64 < CT_FLOAT64_EXT ∧ CT_FLOAT64_EXT < CT_FLOAT64_HEX ∧
      CT_FLOAT64_HEX < CT_STRING) ∧
    colTypeCodes.Nodup ∧
    colTypeCodes = (List.range 10).map (fun (i : Nat) => (i : Int)) ∧
    (NUMTYPE = 10 ∧ NUMTYPE = CT_STRING + 1 ∧ NUMTYPE = (colTypeCodes.length : Int)) ∧
    (∀ t ∈ colTypeCodes, 0 ≤ t ∧ t < NUMTYPE) := by
  refine ⟨rfl, by decide, by decide, by decide, by decide, by decide⟩

/-- C2: the integer NA sentinels are the minimum signed values of their
width, NA_BOOL8 = -2^7, NA_INT32 = -2^31, NA_INT64 = -2^63; NA_BOOL8 differs
from the boolean values 0 and 1; and within each width the sentinel is the
only value whose negation falls outside the width. -/
theorem na_int_sentinels :
    (NA_BOOL8 = -2 ^ 7 ∧ NA_INT32 = -2 ^ 31 ∧ NA_INT64 = -2 ^ 63) ∧
    (NA_BOOL8 ≠ 0 ∧ NA_BOOL8 ≠ 1) ∧
    (∀ x : Int, INT8_MIN ≤ x ∧ x ≤ INT8_MAX →
      (¬ (INT8_MIN ≤ -x ∧ -x ≤ INT8_MAX) ↔ x = NA_BOOL8)) ∧
    (∀ x : Int, INT32_MIN ≤ x ∧ x ≤ INT32_MAX →
      (¬ (INT32_MIN ≤ -x ∧ -x ≤ INT32_MAX) ↔ x = NA_INT32)) ∧
    (∀ x : Int, INT64_MIN ≤ x ∧ x ≤ INT64_MAX →
      (¬ (INT64_MIN ≤ -x ∧ -x ≤ INT64_MAX) ↔ x = NA_INT64)) := by
  simp only [NA_BOOL8, NA_INT32, NA_INT64, INT8_MIN, INT8_MAX, INT32_MIN, INT32_MAX,
    INT64_MIN, INT64_MAX]
  refine ⟨by norm_num, by norm_num, ?_, ?_, ?_⟩ <;>
  · intro x hx
    constructor
    · intro h; omega
    · intro h; omega

/-- C3 (as stated, refuted): NA_FLOAT64_I64 does not have its exponent field
all ones together with a set quiet bit (mantissa bit 51) and payload 0x7A2:
the quiet bit of 0x7FF00000000007A2 is 0. -/
theorem na_float64_not_quiet :
    ¬ (f64Exponent NA_FLOAT64_I64 = 2 ^ 11 - 1 ∧ f64QuietBit NA_FLOAT64_I64 = 1 ∧
        f64Payload NA_FLOAT64_I64 = 0x7A2) := by
  decide

/-- C3 (amended): NA_FLOAT64_I64, read as a binary64 bit pattern, has its
exponent field all ones, its quiet bit (mantissa bit 51) clear, and its low
mantissa bits carry the payload 0x7A2; its mantissa is non-zero, so it is a
NaN, in the signalling encoding. -/
theorem na_float64_layout :
    f64Exponent NA_FLOAT64_I64 = 2 ^ 11 - 1 ∧ f64QuietBit NA_FLOAT64_I64 = 0 ∧
      f64Payload NA_FLOAT64_I64 = 0x7A2 ∧ f64Mantissa NA_FLOAT64_I64 ≠ 0 := by
  decide

/-- C4 (as stated, refuted): NA_FLOAT32_I32 does not have its exponent field
all ones together with a set quiet bit (mantissa bit 22) and payload 0x7A2:
the quiet bit of 0x7F8007A2 is 0. -/
theorem na_float32_not_quiet :
    ¬ (f32Exponent NA_FLOAT32_I32 = 2 ^ 8 - 1 ∧ f32QuietBit NA_FLOAT32_I32 = 1 ∧
        f32Payload NA_FLOAT32_I32 = 0x7A2) := by
  decide

/-- C4 (amended): NA_FLOAT32_I32, read as a binary32 bit pattern, has its
exponent field all ones, its quiet bit (mantissa bit 22) clear, and its low
mantissa bits carry the same payload 0x7A2 as the FLOAT64 sentinel; its
mantissa is non-zero, so it is a NaN, in the signalling encoding. -/
theorem na_float32_layout :
    f32Exponent NA_FLOAT32_I32 = 2 ^ 8 - 1 ∧ f32QuietBit NA_FLOAT32_I32 = 0 ∧
      f32Payload NA_FLOAT32_I32 = 0x7A2 ∧ f32Payload NA_FLOAT32_I32 = f64Payload NA_FLOAT64_I64 ∧
      f32Mantissa NA_FLOAT32_I32 ≠ 0 := by
  decide

/-- C5: a string NA is encoded by `len = NA_LENOFF = INT32_MIN` alone (the
test does not depend on `off`), and every `lenOff` with a real length
`len >= 0`, the empty string `len = 0` included, is not NA whatever its
`off` field holds. -/
theorem lenOff_na_distinct (len off : Int) (hlen : 0 ≤ len) :
    NA_LENOFF = INT32_MIN ∧ NA_LENOFF = -2 ^ 31 ∧
    (∀ l o1 o2 : Int, lenOff.isNA ⟨l, o1⟩ = lenOff.isNA ⟨l, o2⟩) ∧
    (∀ o : Int, lenOff.isNA ⟨NA_LENOFF, o⟩ = true) ∧
    (∀ s : lenOff, s.isNA = true ↔ s.len = NA_LENOFF) ∧
    lenOff.isNA ⟨len, off⟩ = false ∧
    (∀ o : Int, lenOff.isNA ⟨0, o⟩ = false) := by
  refine ⟨rfl, by norm_num [NA_LENOFF, INT32_MIN], fun _ _ _ => rfl, ?_, ?_, ?_, ?_⟩
  · intro o; simp [lenOff.isNA]
  · intro s; simp [lenOff.isNA]
  · simp only [lenOff.isNA, NA_LENOFF, INT32_MIN, beq_eq_false_iff_ne, ne_eq]; omega
  · intro o; simp [lenOff.isNA, NA_LENOFF, INT32_MIN]

/-- Witness for C5: the empty string with an arbitrary offset. -/
theorem lenOff_na_distinct_witness :
    (0 : Int) ≤ 0 ∧ lenOff.isNA ⟨0, 12345⟩ = false :=
  ⟨le_refl 0, (lenOff_na_distinct 0 12345 (le_refl 0)).2.2.2.2.2.1⟩

/-- C6: for every type code t from CT_BOOL8 to CT_STRING the negated code -t
is strictly negative, fits in int8_t, differs from every untagged type code,
differs from the negated code of every other type, and negating it again
gives t back; CT_BOOL8 negates to -1 = NEG; and a code in 0..9 differs from
its negation exactly when it is not CT_DROP. -/
theorem negated_code_tag (t : Int) (hlo : CT_BOOL8 ≤ t) (hhi : t ≤ CT_STRING) :
    -t < 0 ∧ fitsInt8 (-t) ∧
    (∀ u ∈ colTypeCodes, -t ≠ u) ∧
    (∀ u : Int, CT_BOOL8 ≤ u → u ≤ CT_STRING → u ≠ t → -u ≠ -t) ∧
    -(-t) = t ∧
    -CT_BOOL8 = -1 ∧ -CT_BOOL8 = NEG ∧
    (∀ c ∈ colTypeCodes, (-c ≠ c ↔ c ≠ CT_DROP)) := by
  simp only [CT_BOOL8, CT_STRING] at hlo hhi
  refine ⟨by omega, ?_, ?_, ?_, by omega, by decide, by decide, by decide⟩
  · simp only [fitsInt8, INT8_MIN, INT8_MAX]; omega
  · intro u hu
    have h0 : 0 ≤ u := by revert u; decide
    omega
  · intro u _ _ hne; omega

/-- Witness for C6: the code CT_INT64. -/
theorem negated_code_tag_witness :
    CT_BOOL8 ≤ CT_INT64 ∧ CT_INT64 ≤ CT_STRING ∧ -CT_INT64 < 0 ∧ fitsInt8 (-CT_INT64) :=
  ⟨by decide, by decide,
    (negated_code_tag CT_INT64 (by decide) (by decide)).1,
    (negated_code_tag CT_INT64 (by decide) (by decide)).2.1⟩

/-- C10: in both float NA sentinels the sign bit is 0, the exponent field is
all ones and the whole mantissa field is non-zero and equal to exactly 0x7A2,
so each denotes a NaN; each differs from +Inf and from the canonical NaN of
its width; and each is positive when stored in a signed integer of its
width. -/
theorem na_float_is_nan :
    (f64Sign NA_FLOAT64_I64 = 0 ∧ f64Exponent NA_FLOAT64_I64 = 2 ^ 11 - 1 ∧
      f64Mantissa NA_FLOAT64_I64 ≠ 0 ∧ f64Mantissa NA_FLOAT64_I64 = 0x7A2) ∧
    (f32Sign NA_FLOAT32_I32 = 0 ∧ f32Exponent NA_FLOAT32_I32 = 2 ^ 8 - 1 ∧
      f32Mantissa NA_FLOAT32_I32 ≠ 0 ∧ f32Mantissa NA_FLOAT32_I32 = 0x7A2) ∧
    (NA_FLOAT64_I64 ≠ 0x7FF0000000000000 ∧ NA_FLOAT32_I32 ≠ 0x7F800000) ∧
    (NA_FLOAT64_I64 ≠ 0x7FF8000000000000 ∧ NA_FLOAT32_I32 ≠ 0x7FC00000) ∧
    (NA_FLOAT64_I64 < 2 ^ 64 ∧ 0 < toSigned 64 NA_FLOAT64_I64) ∧
    (NA_FLOAT32_I32 < 2 ^ 32 ∧ 0 < toSigned 32 NA_FLOAT32_I32) := by
  decide

/-! ## Theorems: the `numuses` lock -/

theorem StrBufLock.inv_step (s s1 : StrBufLock) (a : LockStep)
    (hs : s.Inv) (h : s.step a = some s1) : s1.Inv := by
  cases a with
  | beginCopy =>
    simp only [StrBufLock.step] at h
    split at h
    · cases h
      rcases hs with ⟨hg, hn⟩ | ⟨_, _, hn⟩
      · left; exact ⟨hg, by simp only [Nat.cast_add, Nat.cast_one]; omega⟩
      · omega
    · cases h
  | endCopy =>
    simp only [StrBufLock.step] at h
    split at h
    · cases h
      rcases hs with ⟨hg, hn⟩ | ⟨_, hc, _⟩
      · left; exact ⟨hg, by simp only; omega⟩
      · omega
    · cases h
  | beginGrow mark =>
    simp only [StrBufLock.step] at h
    split at h
    · rename_i hz
      cases h
      rcases hs with ⟨hg, hn⟩ | ⟨_, _, hn⟩
      · right
        refine ⟨by simp only; omega, ?_, by simp only; omega⟩
        simp only
        omega
      · omega
    · cases h
  | endGrow =>
    simp only [StrBufLock.step] at h
    split at h
    · cases h
      rcases hs with ⟨hg, hn⟩ | ⟨hg, hc, _⟩
      · omega
      · left; exact ⟨by simp only; omega, by simp only [hc]; rfl⟩
    · cases h

theorem StrBufLock.inv_run (acts : List LockStep) :
    ∀ (s s1 : StrBufLock), s.Inv → s.run acts = some s1 → s1.Inv := by
  induction acts with
  | nil =>
    intro s s1 hs h
    simp only [StrBufLock.run, Option.some.injEq] at h
    exact h ▸ hs
  | cons a rest ih =>
    intro s s1 hs h
    simp only [StrBufLock.run] at h
    cases hstep : s.step a with
    | none => rw [hstep] at h; cases h
    | some s2 =>
      rw [hstep] at h
      exact ih s2 s1 (StrBufLock.inv_step s s2 a hs hstep) h

/-- C7: in every state reachable from `numuses = 0` by the steps begin copy,
end copy, begin grow and end grow, no reallocation is in progress while a
thread is between begin copy and end copy (at most one reallocation is in
progress, and then no thread copies), the counter is negative exactly while
a reallocation is in progress, and a non-negative counter equals the number
of copies in progress. -/
theorem numuses_mutual_exclusion (acts : List LockStep) (s : StrBufLock)
    (h : StrBufLock.init.run acts = some s) :
    ¬ (0 < s.growing ∧ 0 < s.copying) ∧
    s.growing ≤ 1 ∧
    (s.numuses < 0 ↔ 0 < s.growing) ∧
    (0 ≤ s.numuses → s.numuses = (s.copying : Int)) := by
  have hinit : StrBufLock.init.Inv := Or.inl ⟨rfl, rfl⟩
  have hs := StrBufLock.inv_run acts StrBufLock.init s hinit h
  rcases hs with ⟨hg, hn⟩ | ⟨hg, hc, hn⟩
  · refine ⟨by omega, by omega, ⟨fun h1 => by omega, fun h1 => by omega⟩, fun _ => hn⟩
  · refine ⟨by omega, by omega, ⟨fun _ => by omega, fun _ => hn⟩, fun h1 => by omega⟩

/-- Witness for C7: two overlapping copies, one of them finished, are in
progress; then the counter is 1 and no reallocation runs. -/
theorem numuses_mutual_exclusion_witness :
    StrBufLock.init.run [.beginCopy, .endCopy, .beginGrow 7, .endGrow, .beginCopy, .beginCopy,
        .endCopy] = some ⟨1, 1, 0⟩ ∧
      ((0 : Int) ≤ 1 → (1 : Int) = ((1 : Nat) : Int)) :=
  ⟨by decide,
    (numuses_mutual_exclusion
      [.beginCopy, .endCopy, .beginGrow 7, .endGrow, .beginCopy, .beginCopy, .endCopy]
      ⟨1, 1, 0⟩ (by decide)).2.2.2⟩

/-! ## Theorems: type promotion -/

theorem promote_eq_max :
    ∀ c ∈ colTypeCodes, ∀ o ∈ colTypeCodes, promote c o = some (max c o) := by
  decide

/-- C8: for every pair of column types (current, observed), promote is
defined; its result is a column type that is >= both inputs and <= every
column type that is >= both inputs (the least such type); in particular the
result is never earlier in the order than current; and promote is monotone
in each argument. -/
theorem promote_least_upper_bound (current observed : Int)
    (hc : current ∈ colTypeCodes) (ho : observed ∈ colTypeCodes) :
    ∃ r, promote current observed = some r ∧ r ∈ colTypeCodes ∧
      current ≤ r ∧ observed ≤ r ∧
      (∀ t ∈ colTypeCodes, current ≤ t → observed ≤ t → r ≤ t) ∧
      (∀ c2 ∈ colTypeCodes, current ≤ c2 →
        ∃ r2, promote c2 observed = some r2 ∧ r ≤ r2) ∧
      (∀ o2 ∈ colTypeCodes, observed ≤ o2 →
        ∃ r2, promote current o2 = some r2 ∧ r ≤ r2) := by
  refine ⟨max current observed, promote_eq_max current hc observed ho, ?_,
    le_max_left _ _, le_max_right _ _, ?_, ?_, ?_⟩
  · rcases max_choice current observed with h | h <;> rw [h] <;> assumption
  · intro t _ h1 h2
    exact max_le h1 h2
  · intro c2 hc2 hle
    exact ⟨max c2 observed, promote_eq_max c2 hc2 observed ho, max_le_max hle (le_refl _)⟩
  · intro o2 ho2 hle
    exact ⟨max current o2, promote_eq_max current hc o2 ho2, max_le_max (le_refl _) hle⟩

/-- Witness for C8: an INT32_BARE column observing a FLOAT64 value is
promoted to a type that is at least FLOAT64. -/
theorem promote_least_upper_bound_witness :
    CT_INT32_BARE ∈ colTypeCodes ∧ CT_FLOAT64 ∈ colTypeCodes ∧
      ∃ r, promote CT_INT32_BARE CT_FLOAT64 = some r ∧ CT_FLOAT64 ≤ r :=
  ⟨by decide, by decide,
    match promote_least_upper_bound CT_INT32_BARE CT_FLOAT64 (by decide) (by decide) with
    | ⟨r, h1, _, _, h4, _⟩ => ⟨r, h1, h4⟩⟩

/-! ## Theorems: the ordered section -/

theorem rowsBefore_succ (chunks : List Chunk) (k : Nat) (hk : k < chunks.length) :
    rowsBefore chunks (k + 1)
      = rowsBefore chunks k + ((chunks[k]?).getD ⟨0, false⟩).nRows := by
  unfold rowsBefore
  have hk2 : k < (chunks.map Chunk.nRows).length := by simpa using hk
  rw [List.sum_take_succ _ k hk2]
  simp [List.getElem?_eq_getElem hk]

theorem rowsBefore_le_total (chunks : List Chunk) (k : Nat) :
    rowsBefore chunks k ≤ totalRows chunks := by
  unfold rowsBefore totalRows
  have h := List.sum_take_add_sum_drop (chunks.map Chunk.nRows) k
  omega

theorem rowsBefore_length (chunks : List Chunk) :
    rowsBefore chunks chunks.length = totalRows chunks := by
  unfold rowsBefore totalRows
  rw [List.take_of_length_le (by simp)]

theorem rowsBefore_mono (chunks : List Chunk) (i j : Nat) (hij : i ≤ j)
    (hj : j ≤ chunks.length) : rowsBefore chunks i ≤ rowsBefore chunks j := by
  induction j with
  | zero =>
    have : i = 0 := by omega
    subst this; exact le_refl _
  | succ n ih =>
    rcases Nat.lt_or_ge i (n + 1) with h | h
    · have h1 := ih (by omega) (by omega)
      have h2 := rowsBefore_succ chunks n (by omega)
      omega
    · have : i = n + 1 := by omega
      subst this; exact le_refl _

theorem orderedSection_inv (chunks : List Chunk) (done : List Nat) (s : OrderedState)
    (hdone : ∀ i ∈ done, i < chunks.length)
    (hmis : ∀ c ∈ chunks, c.mismatch = false)
    (hsum : totalRows chunks < SIZE_MOD)
    (hs : OrderedInv chunks done s) (hturn : s.next ∈ s.waiting) :
    OrderedInv chunks done (orderedSection chunks s) := by
  have hnd : s.next ∈ done := ((hs.waiting_iff s.next).1 hturn).1
  have hlt : s.next < chunks.length := hdone _ hnd
  have hget : chunks[s.next]? = some chunks[s.next] := List.getElem?_eq_getElem hlt
  have hm : (chunks[s.next]).mismatch = false := hmis _ (List.getElem_mem hlt)
  have hsucc := rowsBefore_succ chunks s.next hlt
  have hle := rowsBefore_le_total chunks (s.next + 1)
  rw [hget] at hsucc
  simp only [Option.getD_some] at hsucc
  have hos : orderedSection chunks s =
      { s with next := s.next + 1, waiting := s.waiting.erase s.next,
               DTi := s.DTi ++ [(s.next, s.total)],
               total := (s.total + (chunks[s.next]).nRows) % SIZE_MOD } := by
    simp [orderedSection, hget, hm]
  rw [hos]
  refine ⟨?_, ?_, ?_, ?_, ?_, ?_, ?_⟩
  · exact hlt
  · intro i
    simp only
    rw [hs.waiting_nodup.mem_erase_iff, hs.waiting_iff]
    constructor
    · rintro ⟨hne, hd, hn⟩; exact ⟨hd, by omega⟩
    · rintro ⟨hd, hn⟩; exact ⟨by omega, hd, by omega⟩
  · exact hs.waiting_nodup.erase _
  · intro i hi
    simp only at hi
    rcases Nat.lt_or_ge i s.next with h | h
    · exact hs.below_done i h
    · have : i = s.next := by omega
      rw [this]; exact hnd
  · simp only
    rw [List.range_succ, List.map_append, hs.dti, hs.total]
    rfl
  · simp only
    rw [hs.total, hsucc]
    apply Nat.mod_eq_of_lt
    omega
  · exact hs.stop

theorem drain_inv (chunks : List Chunk) (done : List Nat)
    (hdone : ∀ i ∈ done, i < chunks.length)
    (hmis : ∀ c ∈ chunks, c.mismatch = false)
    (hsum : totalRows chunks < SIZE_MOD) (fuel : Nat) :
    ∀ s, OrderedInv chunks done s → OrderedInv chunks done (drain chunks fuel s) := by
  induction fuel with
  | zero => intro s hs; exact hs
  | succ n ih =>
    intro s hs
    simp only [drain]
    split
    · rename_i hturn
      exact ih _ (orderedSection_inv chunks done s hdone hmis hsum hs hturn)
    · exact hs

theorem orderedSection_waiting (chunks : List Chunk) (s : OrderedState) :
    (orderedSection chunks s).waiting = s.waiting.erase s.next := by
  unfold orderedSection
  simp only
  split <;> rfl

theorem drain_settled (chunks : List Chunk) (fuel : Nat) :
    ∀ s, s.waiting.length ≤ fuel →
      (drain chunks fuel s).next ∉ (drain chunks fuel s).waiting := by
  induction fuel with
  | zero =>
    intro s h
    have hnil : s.waiting = [] := List.length_eq_zero.1 (Nat.le_zero.1 h)
    simp [drain, hnil]
  | succ n ih =>
    intro s h
    simp only [drain]
    split
    · rename_i hturn
      apply ih
      rw [orderedSection_waiting, List.length_erase_of_mem hturn]
      have : 0 < s.waiting.length := List.length_pos_of_mem hturn
      omega
    · assumption

theorem finishScan_inv (chunks : List Chunk) (done : List Nat) (s : OrderedState) (k : Nat)
    (hdone : ∀ i ∈ done, i < chunks.length)
    (hmis : ∀ c ∈ chunks, c.mismatch = false)
    (hsum : totalRows chunks < SIZE_MOD)
    (hs : OrderedInv chunks done s) (hk : k ∉ done) (hklt : k < chunks.length) :
    OrderedInv chunks (k :: done) (finishScan chunks s k) ∧
      (finishScan chunks s k).next ∉ (finishScan chunks s k).waiting := by
  have hnk : s.next ≤ k := by
    by_contra hcon
    exact hk (hs.below_done k (by omega))
  have hkw : k ∉ s.waiting := fun hmem => hk ((hs.waiting_iff k).1 hmem).1
  have h1 : OrderedInv chunks (k :: done) { s with waiting := k :: s.waiting } := by
    refine ⟨hs.next_le, ?_, ?_, ?_, hs.dti, hs.total, hs.stop⟩
    · intro i
      simp only [List.mem_cons]
      rw [hs.waiting_iff]
      constructor
      · rintro (h | ⟨hd, hn⟩)
        · exact ⟨Or.inl h, by omega⟩
        · exact ⟨Or.inr hd, hn⟩
      · rintro ⟨h | hd, hn⟩
        · exact Or.inl h
        · exact Or.inr ⟨hd, hn⟩
    · exact List.nodup_cons.2 ⟨hkw, hs.waiting_nodup⟩
    · intro i hi
      exact List.mem_cons_of_mem _ (hs.below_done i hi)
  have hdone2 : ∀ i ∈ k :: done, i < chunks.length := by
    intro i hi
    rcases List.mem_cons.1 hi with h | h
    · rw [h]; exact hklt
    · exact hdone i h
  constructor
  · exact drain_inv chunks (k :: done) hdone2 hmis hsum _ _ h1
  · apply drain_settled
    simp

theorem foldl_finishScan_inv (chunks : List Chunk)
    (hmis : ∀ c ∈ chunks, c.mismatch = false)
    (hsum : totalRows chunks < SIZE_MOD) (evs : List Nat) :
    ∀ (done : List Nat) (s : OrderedState),
      (∀ i ∈ done, i < chunks.length) → OrderedInv chunks done s →
      s.next ∉ s.waiting → evs.Nodup → (∀ k ∈ evs, k ∉ done) →
      (∀ k ∈ evs, k < chunks.length) →
      ∃ done2, (∀ i, i ∈ done2 ↔ (i ∈ done ∨ i ∈ evs)) ∧
        OrderedInv chunks done2 (evs.foldl (finishScan chunks) s) ∧
        (evs.foldl (finishScan chunks) s).next ∉ (evs.foldl (finishScan chunks) s).waiting := by
  induction evs with
  | nil =>
    intro done s _ hs hset _ _ _
    exact ⟨done, by simp, hs, hset⟩
  | cons k rest ih =>
    intro done s hdone hs _ hnd hfresh hlt
    have hk : k ∉ done := hfresh k (List.mem_cons_self _ _)
    have hklt : k < chunks.length := hlt k (List.mem_cons_self _ _)
    obtain ⟨hinv, hset⟩ := finishScan_inv chunks done s k hdone hmis hsum hs hk hklt
    have hnd2 := List.nodup_cons.1 hnd
    have hdone2 : ∀ i ∈ k :: done, i < chunks.length := by
      intro i hi
      rcases List.mem_cons.1 hi with h | h
      · rw [h]; exact hklt
      · exact hdone i h
    have hfresh2 : ∀ j ∈ rest, j ∉ k :: done := by
      intro j hj hmem
      rcases List.mem_cons.1 hmem with h | h
      · exact hnd2.1 (h ▸ hj)
      · exact hfresh j (List.mem_cons_of_mem _ hj) h
    obtain ⟨done2, hmem, hinv2, hset2⟩ :=
      ih (k :: done) (finishScan chunks s k) hdone2 hinv hset hnd2.2 hfresh2
        (fun j hj => hlt j (List.mem_cons_of_mem _ hj))
    refine ⟨done2, ?_, hinv2, hset2⟩
    intro i
    rw [hmem i]
    simp only [List.mem_cons]
    tauto

/-- C9: in a pass without type-mismatch signal, whatever the order in which
the chunks finish scanning, the chunks pass through the ordered section in
chunk-index order and chunk k is assigned DTi_k = sum of nRows of the chunks
0..k-1 (0 for the first chunk); the pass ends with every chunk committed and
the running total equal to the total row count; hence the row ranges
[DTi_k, DTi_k + nRows_k) start at 0, are contiguous up to the total row count
and are pairwise disjoint and ordered by chunk index. The total row count is
assumed to fit in size_t. -/
theorem ordered_section_row_ranges (chunks : List Chunk) (completion : List Nat)
    (hperm : completion.Perm (List.range chunks.length))
    (hmis : ∀ c ∈ chunks, c.mismatch = false)
    (hsum : totalRows chunks < SIZE_MOD) :
    runPass chunks completion =
      { next := chunks.length, total := totalRows chunks, waiting := [],
        DTi := (List.range chunks.length).map (fun k => (k, rowsBefore chunks k)),
        stopTeam := false } ∧
    rowsBefore chunks 0 = 0 ∧
    (∀ k (h : k < chunks.length),
      rowsBefore chunks (k + 1) = rowsBefore chunks k + (chunks[k]).nRows) ∧
    rowsBefore chunks chunks.length = totalRows chunks ∧
    (∀ i j (_ : i < j) (hj : j < chunks.length),
      rowsBefore chunks i + (chunks[i]).nRows ≤ rowsBefore chunks j) := by
  have hsuccs : ∀ k (h : k < chunks.length),
      rowsBefore chunks (k + 1) = rowsBefore chunks k + (chunks[k]).nRows := by
    intro k h
    rw [rowsBefore_succ chunks k h, List.getElem?_eq_getElem h, Option.getD_some]
  refine ⟨?_, by simp [rowsBefore], hsuccs, rowsBefore_length chunks, ?_⟩
  · have hinit : OrderedInv chunks [] OrderedState.init :=
      ⟨Nat.zero_le _, by simp [OrderedState.init], List.nodup_nil,
        by simp [OrderedState.init], by simp [OrderedState.init],
        by simp [OrderedState.init, rowsBefore], rfl⟩
    have hnd : completion.Nodup := hperm.nodup_iff.2 (List.nodup_range _)
    have hlt : ∀ k ∈ completion, k < chunks.length := fun k hk =>
      List.mem_range.1 (hperm.mem_iff.1 hk)
    obtain ⟨done, hmem, hinv, hset⟩ :=
      foldl_finishScan_inv chunks hmis hsum completion [] OrderedState.init
        (by simp) hinit (by simp [OrderedState.init]) hnd (by simp) hlt
    have hall : ∀ i, i < chunks.length → i ∈ done := fun i hi =>
      (hmem i).2 (Or.inr (hperm.mem_iff.2 (List.mem_range.2 hi)))
    have hdlt : ∀ i ∈ done, i < chunks.length := by
      intro i hi
      rcases (hmem i).1 hi with h | h
      · simp at h
      · exact hlt i h
    change OrderedInv chunks done (runPass chunks completion) at hinv
    change (runPass chunks completion).next ∉ (runPass chunks completion).waiting at hset
    have hnext : (runPass chunks completion).next = chunks.length := by
      rcases Nat.lt_or_ge (runPass chunks completion).next chunks.length with h | h
      · exact absurd ((hinv.waiting_iff _).2 ⟨hall _ h, le_refl _⟩) hset
      · exact Nat.le_antisymm hinv.next_le h
    have hwait : (runPass chunks completion).waiting = [] := by
      apply List.eq_nil_iff_forall_not_mem.2
      intro i hi
      have h := (hinv.waiting_iff i).1 hi
      have := hdlt i h.1
      omega
    have hdti := hinv.dti
    have htot := hinv.total
    have hstop := hinv.stop
    rw [hnext] at hdti htot
    rw [rowsBefore_length] at htot
    cases hrun : runPass chunks completion with
    | mk n t w d st =>
      rw [hrun] at hnext hwait hdti htot hstop
      simp only at hnext hwait hdti htot hstop
      rw [hnext, hwait, hdti, htot, hstop]
  · intro i j hij hj
    have h1 := hsuccs i (by omega)
    have h2 := rowsBefore_mono chunks (i + 1) j (by omega) (by omega)
    omega

/-- Witness for C9: three chunks of 3, 5 and 2 rows that finish scanning in
the order 2, 0, 1 are assigned the starting rows 0, 3 and 8. -/
theorem ordered_section_row_ranges_witness :
    List.Perm [2, 0, 1] (List.range [Chunk.mk 3 false, ⟨5, false⟩, ⟨2, false⟩].length) ∧
    (∀ c ∈ [Chunk.mk 3 false, ⟨5, false⟩, ⟨2, false⟩], c.mismatch = false) ∧
    totalRows [Chunk.mk 3 false, ⟨5, false⟩, ⟨2, false⟩] < SIZE_MOD ∧
    (runPass [Chunk.mk 3 false, ⟨5, false⟩, ⟨2, false⟩] [2, 0, 1]).DTi
      = [(0, 0), (1, 3), (2, 8)] :=
  ⟨by decide, by decide, by decide,
    (congrArg OrderedState.DTi
      (ordered_section_row_ranges [Chunk.mk 3 false, ⟨5, false⟩, ⟨2, false⟩] [2, 0, 1]
        (by decide) (by decide) (by decide)).1).trans (by decide)⟩

end Fread
